import Mathlib

/-!
Verification development for the exam_bot repository.

The embedding follows the two source files that carry the decision logic:

- `src/exam_analyzer.py` (class `ExamAnalyzer`): per-question analysis of the
  loaded pass results (`analyze_questions`), answer-key construction
  (`build_answer_key`) and the expected-score estimate in `generate_report`.
- `src/persistent_exam_bot.py` (class `AutomatedExamBot`): scraping of the
  per-question correctness mapping (`parse_detailed_results`) and the control
  flow of one full pass (`test_single_option`).

Python dictionaries are embedded as association lists (preserving insertion
order, the semantics Python guarantees) or as `Nat → Option _` lookup
functions where only lookups occur.  All machine work is on small naturals,
so no overflow modelling is needed.
-/

namespace ExamBot

/-- The five confidence tags assigned by `ExamAnalyzer.analyze_questions`. -/
inductive Confidence where
  | high
  | multiple_correct
  | all_incorrect
  | untested_guess
  | fallback
deriving DecidableEq, Repr

/-- Classification of one option for one question, mirroring the three lists
(`correct_options`, `incorrect_options`, `missing_options`) that the analyzer
builds for each question. -/
inductive OptClass where
  | correct
  | incorrect
  | missing
deriving DecidableEq, Repr

/-- `self.test_results : Dict[int, Dict[int, bool]]` — for each option index,
optionally a loaded pass giving per-question correctness.  Dictionary lookups
(`option_idx in self.test_results`, `q_num in self.test_results[option_idx]`)
are embedded as `Option`-valued functions. -/
def TestResults : Type := Nat → Option (Nat → Option Bool)

/-- The classification performed by the inner loop of `analyze_questions`
(lines 100-117): an option index is `correct` when its pass recorded `True`
for the question, `incorrect` when it recorded `False`, and `missing` when
either no pass for this option was loaded or the pass lacks the question. -/
def classify (tr : TestResults) (q : Nat) (optionIdx : Nat) : OptClass :=
  match tr optionIdx with
  | some perQuestion =>
      match perQuestion q with
      | some true => OptClass.correct
      | some false => OptClass.incorrect
      | none => OptClass.missing
  | none => OptClass.missing

/-- `analysis["correct_options"]`: option indices in `range(4)`, in increasing
order, whose pass recorded the question correct. -/
def correct_options (tr : TestResults) (q : Nat) : List Nat :=
  (List.range 4).filter fun i => decide (classify tr q i = OptClass.correct)

/-- `analysis["incorrect_options"]`. -/
def incorrect_options (tr : TestResults) (q : Nat) : List Nat :=
  (List.range 4).filter fun i => decide (classify tr q i = OptClass.incorrect)

/-- `analysis["missing_options"]`. -/
def missing_options (tr : TestResults) (q : Nat) : List Nat :=
  (List.range 4).filter fun i => decide (classify tr q i = OptClass.missing)

/-- The per-question outcome of the analyzer.  The source stores the
recommendation as a pair `(option_index, option_name)` with
`option_name = self.options[option_index]`; the name is determined by the
index, so only the index is kept. -/
structure QuestionAnalysis where
  recommended_answer : Nat
  confidence : Confidence
deriving DecidableEq, Repr

/-- The resolution policy of `analyze_questions` (lines 119-139) for one
question: first correct option if any (tag `high` when unique, otherwise
`multiple_correct`); else `(0, all_incorrect)` when all four options tested
incorrect; else the first untested option with tag `untested_guess`; else
`(0, fallback)`.  `headD 0` is Python's `list[0]` on the list the branch has
just checked to be non-empty. -/
def analyze_question (tr : TestResults) (q : Nat) : QuestionAnalysis :=
  let co := correct_options tr q
  let io := incorrect_options tr q
  let mo := missing_options tr q
  if co ≠ [] then
    { recommended_answer := co.headD 0
      confidence := if co.length = 1 then Confidence.high else Confidence.multiple_correct }
  else if io.length = 4 then
    { recommended_answer := 0, confidence := Confidence.all_incorrect }
  else if mo ≠ [] then
    { recommended_answer := mo.headD 0, confidence := Confidence.untested_guess }
  else
    { recommended_answer := 0, confidence := Confidence.fallback }

/-- `ExamAnalyzer.analyze_questions`: one analysis per question number in
`range(1, total_questions + 1)`, keyed by question number. -/
def analyze_questions (tr : TestResults) (totalQuestions : Nat) :
    List (Nat × QuestionAnalysis) :=
  (List.range totalQuestions).map fun i => (i + 1, analyze_question tr (i + 1))

/-- `ExamAnalyzer.build_answer_key`: `answer_key[q_num] = recommended[0]`,
the recommended option index, for every analyzed question. -/
def build_answer_key (questionAnalysis : List (Nat × QuestionAnalysis)) :
    List (Nat × Nat) :=
  questionAnalysis.map fun p => (p.1, p.2.recommended_answer)

/-- The per-tag counts computed by the list comprehensions in
`build_answer_key` / `generate_report`: the number of analyzed questions
carrying a given confidence tag. -/
def count_confidence (questionAnalysis : List (Nat × QuestionAnalysis))
    (tag : Confidence) : Nat :=
  (questionAnalysis.filter fun p => decide (p.2.confidence = tag)).length

/-- The `guessed` count of `generate_report`: questions whose confidence is
in `["untested_guess", "fallback"]`. -/
def count_guessed (questionAnalysis : List (Nat × QuestionAnalysis)) : Nat :=
  (questionAnalysis.filter fun p =>
    decide (p.2.confidence = Confidence.untested_guess ∨
      p.2.confidence = Confidence.fallback)).length

/-- The expected-score estimation in `ExamAnalyzer.generate_report`
(lines 419-426): `expected_correct = high_confidence + multiple_correct`,
then `expected_correct += guessed * 0.25` when `guessed > 0`, and finally
`expected_score = expected_correct / total_questions * 100` with
`total_questions = len(question_analysis)`.  The float `0.25` is the exact
rational `1/4`. -/
def expected_score (questionAnalysis : List (Nat × QuestionAnalysis)) : ℚ :=
  let total_questions := questionAnalysis.length
  let high_confidence := count_confidence questionAnalysis Confidence.high
  let multiple_correct := count_confidence questionAnalysis Confidence.multiple_correct
  let expected_correct : ℚ :=
    ((high_confidence : ℚ) + (multiple_correct : ℚ)) +
      (if 0 < count_guessed questionAnalysis then
        (count_guessed questionAnalysis : ℚ) * (1 / 4) else 0)
  expected_correct / (total_questions : ℚ) * 100

/-!
Embedding of `AutomatedExamBot.parse_detailed_results` (persistent_exam_bot.py
lines 404-454).  The scrape locates page elements containing the text
`Correct` and `Incorrect` and, for each, a nearby question number (possibly
none).  We abstract each element by the question number found near it, so the
two element lists become `List (Option Nat)`.  The Python `results` dict is an
association list: assignment to a fresh key appends, assignment to a present
key updates in place (insertion order preserved).
-/

/-- Keys of the results dictionary. -/
def keys (d : List (Nat × Bool)) : List Nat :=
  d.map Prod.fst

/-- `q_num in results`. -/
def hasKey (d : List (Nat × Bool)) (q : Nat) : Bool :=
  d.any fun p => p.1 == q

/-- `results[q_num] = v` with Python dict semantics: update in place when the
key is present, append otherwise. -/
def setKey (d : List (Nat × Bool)) (q : Nat) (v : Bool) : List (Nat × Bool) :=
  if hasKey d q then d.map fun p => if p.1 = q then (q, v) else p
  else d ++ [(q, v)]

/-- `results[q_num]` as an optional lookup. -/
def lookup (d : List (Nat × Bool)) (q : Nat) : Option Bool :=
  (d.find? fun p => p.1 == q).map Prod.snd

/-- First loop of `parse_detailed_results`: for each element containing
`Correct`, if a question number `q` was found near it and `1 <= q <= total`,
set `results[q] = True`. -/
def recordCorrect (total : Nat) (d : List (Nat × Bool)) (oq : Option Nat) :
    List (Nat × Bool) :=
  match oq with
  | some q => if 1 ≤ q ∧ q ≤ total then setKey d q true else d
  | none => d

/-- Second loop: for each element containing `Incorrect`, if a question
number `q` was found near it, `1 <= q <= total` and `q not in results`, set
`results[q] = False` (an append, by the freshness guard). -/
def recordIncorrect (total : Nat) (d : List (Nat × Bool)) (oq : Option Nat) :
    List (Nat × Bool) :=
  match oq with
  | some q =>
      if (1 ≤ q ∧ q ≤ total) ∧ hasKey d q = false then d ++ [(q, false)] else d
  | none => d

/-- Final loop: `for q_num in range(1, total + 1): if q_num not in results:
results[q_num] = False`. -/
def fillMissing (total : Nat) (d : List (Nat × Bool)) : List (Nat × Bool) :=
  (List.range total).foldl
    (fun d i => if hasKey d (i + 1) = false then d ++ [(i + 1, false)] else d) d

/-- `AutomatedExamBot.parse_detailed_results`.  `scrapeFail` models the
`except` path wrapping the whole body: on any scraping exception the method
returns `{q: False for q in range(1, total + 1)}`. -/
def parse_detailed_results (total : Nat) (scrapeFail : Bool)
    (correctQs incorrectQs : List (Option Nat)) : List (Nat × Bool) :=
  if scrapeFail then (List.range total).map fun i => (i + 1, false)
  else
    fillMissing total
      (incorrectQs.foldl (recordIncorrect total)
        (correctQs.foldl (recordCorrect total) []))

/-!
Embedding of the control flow of `AutomatedExamBot.test_single_option`
(persistent_exam_bot.py lines 228-402).  The interactions with the browser
are abstracted into an environment record; the embedding keeps every early
`return {}` of the source in order.
-/

/-- Environment of one pass: what the browser layer would answer at each
interaction point of `test_single_option`. -/
structure PassEnv where
  /-- The initial `self.automation.driver.current_url` probe succeeds. -/
  browserResponsive : Bool
  /-- Number of questions returned by the `find_questions` re-discovery. -/
  foundQuestions : Nat
  /-- `self.total_questions`, fixed earlier by `find_and_analyze_questions`. -/
  totalQuestions : Nat
  /-- Per-question outcome of `self.automation.select_answer(q_num, idx)`. -/
  selectSuccess : Nat → Bool
  /-- The periodic browser health checks inside the selection loop (run at
  every `q_num` divisible by 10) all succeed. -/
  loopHealthOk : Bool
  /-- Outcome of `self.automation.submit_exam()`. -/
  submitSuccess : Bool
  /-- `parse_detailed_results` raises inside its `try` block. -/
  scrapeFail : Bool
  /-- Question numbers found near the `Correct` marker elements. -/
  correctQs : List (Option Nat)
  /-- Question numbers found near the `Incorrect` marker elements. -/
  incorrectQs : List (Option Nat)

/-- Observable outcome of `test_single_option`: the returned results
dictionary, whether the pass record file `option_<name>_<session>.json` was
written, and whether the results were stored in `self.test_results`. -/
structure PassOutcome where
  results : List (Nat × Bool)
  fileWritten : Bool
  memoryStored : Bool
deriving DecidableEq, Repr

/-- `successful_selections`: the counter incremented once per question whose
`select_answer` call returns `True` (loop over `range(1, total + 1)`). -/
def successful_selections (env : PassEnv) : Nat :=
  ((List.range env.totalQuestions).filter fun i => env.selectSuccess (i + 1)).length

/-- Control flow of `AutomatedExamBot.test_single_option`.  Early exits, in
source order: unresponsive browser (`return {}`), no questions re-found
(`return {}`), a failed mid-loop health check (`return {}`; those checks run
only at question numbers divisible by 10, hence only when at least ten
questions exist), failed submission (`return {}`), and empty parsed results
(`return {}`).  Only after all of these does the method write the result
file and store the results in `self.test_results`.  The count of successful
selections is reported and compared against the 80 percent floor for a
warning message, but never gates the control flow. -/
def test_single_option (env : PassEnv) : PassOutcome :=
  if env.browserResponsive = false then ⟨[], false, false⟩
  else if env.foundQuestions = 0 then ⟨[], false, false⟩
  else if env.loopHealthOk = false ∧ 10 ≤ env.totalQuestions then ⟨[], false, false⟩
  else if env.submitSuccess = false then ⟨[], false, false⟩
  else
    let results := parse_detailed_results env.totalQuestions env.scrapeFail
      env.correctQs env.incorrectQs
    if results = [] then ⟨[], false, false⟩
    else ⟨results, true, true⟩

/-!  Helper lemmas about the analyzer.  -/

/-- Membership in `correct_options` means: an option index below 4 whose
pass recorded the question correct. -/
lemma mem_correct_options {tr : TestResults} {q o : Nat} :
    o ∈ correct_options tr q ↔ o < 4 ∧ classify tr q o = OptClass.correct := by
  simp [correct_options, List.mem_filter, List.mem_range]

/-- Membership in `incorrect_options`. -/
lemma mem_incorrect_options {tr : TestResults} {q o : Nat} :
    o ∈ incorrect_options tr q ↔ o < 4 ∧ classify tr q o = OptClass.incorrect := by
  simp [incorrect_options, List.mem_filter, List.mem_range]

/-- Membership in `missing_options`. -/
lemma mem_missing_options {tr : TestResults} {q o : Nat} :
    o ∈ missing_options tr q ↔ o < 4 ∧ classify tr q o = OptClass.missing := by
  simp [missing_options, List.mem_filter, List.mem_range]

lemma filter_range_ne_nil {p : Nat → Bool} {n o : Nat} (ho : o < n)
    (hp : p o = true) : (List.range n).filter p ≠ [] := by
  intro h
  have hmem : o ∈ (List.range n).filter p :=
    List.mem_filter.2 ⟨List.mem_range.2 ho, hp⟩
  rw [h] at hmem
  exact absurd hmem (List.not_mem_nil o)

lemma headD_mem {l : List Nat} (h : l ≠ []) : l.headD 0 ∈ l := by
  cases l with
  | nil => exact absurd rfl h
  | cons a t => simp

/-- The head of a filtered `List.range` is least among the elements of the
range satisfying the predicate (the filtered list is sorted). -/
lemma headD_filter_range_le {p : Nat → Bool} {n o : Nat} (ho : o < n)
    (hp : p o = true) : ((List.range n).filter p).headD 0 ≤ o := by
  have hpw : ((List.range n).filter p).Pairwise (· < ·) :=
    List.Pairwise.sublist (List.filter_sublist _) (List.pairwise_lt_range n)
  have hmem : o ∈ (List.range n).filter p :=
    List.mem_filter.2 ⟨List.mem_range.2 ho, hp⟩
  cases hf : (List.range n).filter p with
  | nil => rw [hf] at hmem; simp at hmem
  | cons a t =>
      rw [hf] at hmem hpw
      rcases List.mem_cons.1 hmem with h | h
      · simp [h]
      · have := (List.pairwise_cons.1 hpw).1 o h
        simp
        omega

/-- The inner loop of `analyze_questions` puts each of the four option
indices in exactly one of the three lists, so the three lengths always sum
to 4. -/
lemma options_partition (tr : TestResults) (q : Nat) :
    (correct_options tr q).length + (incorrect_options tr q).length +
      (missing_options tr q).length = 4 := by
  unfold correct_options incorrect_options missing_options
  have haux : ∀ l : List Nat,
      (l.filter fun i => decide (classify tr q i = OptClass.correct)).length +
        (l.filter fun i => decide (classify tr q i = OptClass.incorrect)).length +
        (l.filter fun i => decide (classify tr q i = OptClass.missing)).length
        = l.length := by
    intro l
    induction l with
    | nil => rfl
    | cons hd tl ih =>
        cases h : classify tr q hd <;> simp [List.filter_cons, h] <;> omega
  have := haux (List.range 4)
  simpa using this

/-!  Claims about the analyzer (C1 - C6).  -/

/-- Claim C1: whenever question `q` has a correct-option candidate (an option
whose pass recorded `perQuestion[q] = true`), the analyzer recommends the
lowest-indexed such candidate, tags `high` exactly when the candidate is
unique, and tags `multiple_correct` exactly when there is more than one. -/
theorem C1_lowest_correct_candidate (tr : TestResults) (q : Nat)
    (h : ∃ o, o < 4 ∧ classify tr q o = OptClass.correct) :
    (analyze_question tr q).recommended_answer ∈ correct_options tr q ∧
    (∀ o ∈ correct_options tr q,
      (analyze_question tr q).recommended_answer ≤ o) ∧
    ((analyze_question tr q).confidence = Confidence.high ↔
      (correct_options tr q).length = 1) ∧
    ((analyze_question tr q).confidence = Confidence.multiple_correct ↔
      1 < (correct_options tr q).length) := by
  obtain ⟨o, ho, hc⟩ := h
  have hco : correct_options tr q ≠ [] :=
    filter_range_ne_nil ho (by simp [hc])
  have ha : analyze_question tr q =
      { recommended_answer := (correct_options tr q).headD 0
        confidence := if (correct_options tr q).length = 1 then
          Confidence.high else Confidence.multiple_correct } := by
    unfold analyze_question
    simp [hco]
  refine ⟨?_, ?_, ?_, ?_⟩
  · rw [ha]
    exact headD_mem hco
  · intro o' ho'
    rw [ha]
    obtain ⟨hr, hp⟩ := List.mem_filter.1 ho'
    exact headD_filter_range_le (List.mem_range.1 hr) hp
  · rw [ha]
    by_cases hl : (correct_options tr q).length = 1 <;> simp [hl]
  · rw [ha]
    have hpos : 0 < (correct_options tr q).length := List.length_pos.2 hco
    by_cases hl : (correct_options tr q).length = 1 <;> simp [hl] <;> omega

/-- A loaded pass marking options 1 and 3 correct for question 1: witness
input for C1. -/
def trTwoCorrect : TestResults := fun idx =>
  if idx = 1 ∨ idx = 3 then some (fun q => if q = 1 then some true else none)
  else none

/-- Witness for C1: with options 1 and 3 both recorded correct for question
1, the recommendation is option 1 (the lower index) with tag
`multiple_correct`. -/
theorem C1_lowest_correct_candidate_witness :
    (analyze_question trTwoCorrect 1).recommended_answer ∈
      correct_options trTwoCorrect 1 ∧
    (∀ o ∈ correct_options trTwoCorrect 1,
      (analyze_question trTwoCorrect 1).recommended_answer ≤ o) ∧
    ((analyze_question trTwoCorrect 1).confidence = Confidence.high ↔
      (correct_options trTwoCorrect 1).length = 1) ∧
    ((analyze_question trTwoCorrect 1).confidence = Confidence.multiple_correct ↔
      1 < (correct_options trTwoCorrect 1).length) :=
  C1_lowest_correct_candidate trTwoCorrect 1 ⟨1, by decide, by decide⟩

/-- Claim C2: `analyze_questions` followed by `build_answer_key` yields an
answer key whose keys are exactly the question numbers `1..totalQuestions`
in order (one entry each, no more and no fewer), for every `totalQuestions`
and every set of loaded passes (including none); and every analyzed question
carries one of the five confidence tags. -/
theorem C2_total_coverage (tr : TestResults) (totalQuestions : Nat) :
    (build_answer_key (analyze_questions tr totalQuestions)).map Prod.fst =
      (List.range totalQuestions).map (· + 1) ∧
    ∀ p ∈ analyze_questions tr totalQuestions,
      p.2.confidence = Confidence.high ∨
      p.2.confidence = Confidence.multiple_correct ∨
      p.2.confidence = Confidence.all_incorrect ∨
      p.2.confidence = Confidence.untested_guess ∨
      p.2.confidence = Confidence.fallback := by
  constructor
  · simp [build_answer_key, analyze_questions, List.map_map]
  · intro p hp
    cases hc : p.2.confidence <;> simp

/-- Witness for C2 at a concrete input: two questions with the pass set of
`trTwoCorrect`. -/
theorem C2_total_coverage_witness :
    (build_answer_key (analyze_questions trTwoCorrect 2)).map Prod.fst =
      (List.range 2).map (· + 1) ∧
    ((1, analyze_question trTwoCorrect 1).2.confidence = Confidence.high ∨
      (1, analyze_question trTwoCorrect 1).2.confidence = Confidence.multiple_correct ∨
      (1, analyze_question trTwoCorrect 1).2.confidence = Confidence.all_incorrect ∨
      (1, analyze_question trTwoCorrect 1).2.confidence = Confidence.untested_guess ∨
      (1, analyze_question trTwoCorrect 1).2.confidence = Confidence.fallback) :=
  ⟨(C2_total_coverage trTwoCorrect 2).1,
    (C2_total_coverage trTwoCorrect 2).2 (1, analyze_question trTwoCorrect 1)
      (by simp [analyze_questions, List.range_succ])⟩

/-- Claim C3: when every one of the four options was tested and recorded
incorrect for question `q`, the analyzer recommends option index 0 with tag
`all_incorrect`. -/
theorem C3_all_incorrect (tr : TestResults) (q : Nat)
    (h : ∀ o, o < 4 → classify tr q o = OptClass.incorrect) :
    analyze_question tr q =
      { recommended_answer := 0, confidence := Confidence.all_incorrect } := by
  have hco : correct_options tr q = [] := by
    rw [correct_options, List.filter_eq_nil]
    intro a ha
    simp [h a (List.mem_range.1 ha)]
  have hio : (incorrect_options tr q).length = 4 := by
    have hself : incorrect_options tr q = List.range 4 := by
      rw [incorrect_options, List.filter_eq_self]
      intro a ha
      simp [h a (List.mem_range.1 ha)]
    rw [hself, List.length_range]
  unfold analyze_question
  simp [hco, hio]

/-- Four loaded passes that all recorded question 1 incorrect: witness input
for C3 (the spec's Scenario C). -/
def trAllIncorrect : TestResults := fun idx =>
  if idx < 4 then some (fun q => if q = 1 then some false else none) else none

/-- Witness for C3: four passes all reporting question 1 incorrect yield the
recommendation `(0, all_incorrect)`. -/
theorem C3_all_incorrect_witness :
    analyze_question trAllIncorrect 1 =
      { recommended_answer := 0, confidence := Confidence.all_incorrect } :=
  C3_all_incorrect trAllIncorrect 1 (by intro o ho; interval_cases o <;> rfl)

/-- Claim C4: when question `q` has no correct-option candidate but at least
one untested option, the analyzer tags `untested_guess` and recommends the
lowest-indexed untested option. -/
theorem C4_untested_guess (tr : TestResults) (q : Nat)
    (hnc : ∀ o, o < 4 → classify tr q o ≠ OptClass.correct)
    (hm : ∃ o, o < 4 ∧ classify tr q o = OptClass.missing) :
    (analyze_question tr q).confidence = Confidence.untested_guess ∧
    (analyze_question tr q).recommended_answer ∈ missing_options tr q ∧
    ∀ o ∈ missing_options tr q,
      (analyze_question tr q).recommended_answer ≤ o := by
  obtain ⟨o, ho, hmo⟩ := hm
  have hco : correct_options tr q = [] := by
    rw [correct_options, List.filter_eq_nil]
    intro a ha
    simpa using hnc a (List.mem_range.1 ha)
  have hmo_ne : missing_options tr q ≠ [] :=
    filter_range_ne_nil ho (by simp [hmo])
  have hio : (incorrect_options tr q).length ≠ 4 := by
    have hpart := options_partition tr q
    have hc0 : (correct_options tr q).length = 0 := by rw [hco]; rfl
    have hm1 : 0 < (missing_options tr q).length := List.length_pos.2 hmo_ne
    omega
  have ha : analyze_question tr q =
      { recommended_answer := (missing_options tr q).headD 0
        confidence := Confidence.untested_guess } := by
    unfold analyze_question
    simp [hco, hio, hmo_ne]
  refine ⟨by rw [ha], ?_, ?_⟩
  · rw [ha]
    exact headD_mem hmo_ne
  · intro o' ho'
    rw [ha]
    obtain ⟨hr, hp⟩ := List.mem_filter.1 ho'
    exact headD_filter_range_le (List.mem_range.1 hr) hp

/-- A single loaded pass (option 0) that recorded question 1 incorrect:
witness input for C4 (the untested options are 1, 2, 3). -/
def trOneIncorrect : TestResults := fun idx =>
  if idx = 0 then some (fun q => if q = 1 then some false else none) else none

/-- Witness for C4: with only option 0 tested (and recorded incorrect) for
question 1, the recommendation is the lowest untested option, index 1, with
tag `untested_guess`. -/
theorem C4_untested_guess_witness :
    ((analyze_question trOneIncorrect 1).confidence = Confidence.untested_guess ∧
      (analyze_question trOneIncorrect 1).recommended_answer ∈
        missing_options trOneIncorrect 1 ∧
      ∀ o ∈ missing_options trOneIncorrect 1,
        (analyze_question trOneIncorrect 1).recommended_answer ≤ o) ∧
    (analyze_question trOneIncorrect 1).recommended_answer = 1 :=
  ⟨C4_untested_guess trOneIncorrect 1
      (by intro o ho; interval_cases o <;> decide) ⟨1, by decide, by decide⟩,
    by decide⟩

/-- Claim C5: the `fallback` branch of the resolution policy is unreachable:
no question is ever tagged `fallback`, whatever the loaded passes. -/
theorem C5_fallback_unreachable (tr : TestResults) (q : Nat) :
    (analyze_question tr q).confidence ≠ Confidence.fallback := by
  have hpart := options_partition tr q
  unfold analyze_question
  by_cases hco : correct_options tr q = []
  · by_cases hio : (incorrect_options tr q).length = 4
    · simp [hco, hio]
    · by_cases hmo : missing_options tr q = []
      · exfalso
        have hc0 : (correct_options tr q).length = 0 := by rw [hco]; rfl
        have hm0 : (missing_options tr q).length = 0 := by rw [hmo]; rfl
        omega
      · simp [hco, hio, hmo]
  · by_cases hl : (correct_options tr q).length = 1 <;> simp [hco, hl]

/-- `guessed` splits into the `untested_guess` count plus the `fallback`
count (the two tags are mutually exclusive). -/
lemma count_guessed_split (qa : List (Nat × QuestionAnalysis)) :
    count_guessed qa =
      count_confidence qa Confidence.untested_guess +
        count_confidence qa Confidence.fallback := by
  induction qa with
  | nil => rfl
  | cons hd tl ih =>
      cases h : hd.2.confidence <;>
        simp [count_guessed, count_confidence, List.filter_cons, h] at ih ⊢ <;>
        omega

/-- The spec's Scenario D: 8 questions tagged `high`, 2 tagged
`untested_guess`, 10 questions in total. -/
def scenarioD : List (Nat × QuestionAnalysis) :=
  ((List.range 8).map fun i => (i + 1, ⟨0, Confidence.high⟩)) ++
    [(9, ⟨1, Confidence.untested_guess⟩), (10, ⟨1, Confidence.untested_guess⟩)]

/-- Claim C6: the expected score equals
`(count(high) + count(multiple_correct) + 1/4 * (count(untested_guess) +
count(fallback))) / totalQuestions * 100` — in particular `all_incorrect`
questions contribute nothing to the numerator — and Scenario D (8 `high`,
2 `untested_guess`, 10 questions) evaluates to 85. -/
theorem C6_expected_score_formula :
    (∀ qa : List (Nat × QuestionAnalysis),
      expected_score qa =
        ((count_confidence qa Confidence.high : ℚ) +
          (count_confidence qa Confidence.multiple_correct : ℚ) +
          (1 / 4) * ((count_confidence qa Confidence.untested_guess : ℚ) +
            (count_confidence qa Confidence.fallback : ℚ))) /
          (qa.length : ℚ) * 100) ∧
    scenarioD.length = 10 ∧
    count_confidence scenarioD Confidence.high = 8 ∧
    count_confidence scenarioD Confidence.untested_guess = 2 ∧
    count_confidence scenarioD Confidence.all_incorrect = 0 ∧
    expected_score scenarioD = 85 := by
  refine ⟨?_, by decide, by decide, by decide, by decide, ?_⟩
  · intro qa
    have hsplit := count_guessed_split qa
    unfold expected_score
    by_cases hg : 0 < count_guessed qa
    · rw [if_pos hg, hsplit]
      push_cast
      ring
    · have hg0 : count_guessed qa = 0 := by omega
      have hu : count_confidence qa Confidence.untested_guess = 0 := by omega
      have hf : count_confidence qa Confidence.fallback = 0 := by omega
      rw [if_neg hg, hu, hf]
      push_cast
      ring
  · simp [expected_score, count_guessed, count_confidence, scenarioD,
      List.range_succ, List.filter_cons, List.filter_nil]
    norm_num

/-!  Helper lemmas about the results dictionary of `parse_detailed_results`. -/

lemma hasKey_iff {d : List (Nat × Bool)} {q : Nat} :
    hasKey d q = true ↔ q ∈ keys d := by
  simp [hasKey, keys, List.any_eq_true, List.mem_map]

lemma keys_append (d e : List (Nat × Bool)) :
    keys (d ++ e) = keys d ++ keys e := by
  simp [keys]

lemma keys_update_eq (d : List (Nat × Bool)) (q : Nat) (v : Bool) :
    keys (d.map fun p => if p.1 = q then (q, v) else p) = keys d := by
  unfold keys
  rw [List.map_map]
  apply List.map_congr_left
  intro p hp
  by_cases h : p.1 = q <;> simp [h]

lemma keys_setKey (d : List (Nat × Bool)) (q : Nat) (v : Bool) :
    keys (setKey d q v) =
      if hasKey d q = true then keys d else keys d ++ [q] := by
  unfold setKey
  by_cases h : hasKey d q = true
  · rw [if_pos h, if_pos h]
    exact keys_update_eq d q v
  · rw [if_neg h, if_neg h, keys_append]
    rfl

lemma mem_keys_setKey {d : List (Nat × Bool)} {q : Nat} {v : Bool} {x : Nat} :
    x ∈ keys (setKey d q v) ↔ x ∈ keys d ∨ x = q := by
  rw [keys_setKey]
  by_cases h : hasKey d q = true <;> simp [h]
  intro hx
  subst hx
  exact hasKey_iff.1 h

/-- Keys invariant maintained through the scraping loops: no duplicate keys,
and every key is a question number in `1..total`. -/
def KeysOk (total : Nat) (d : List (Nat × Bool)) : Prop :=
  (keys d).Nodup ∧ ∀ q ∈ keys d, 1 ≤ q ∧ q ≤ total

lemma KeysOk.nil (total : Nat) : KeysOk total [] :=
  ⟨List.nodup_nil, by intro q hq; simp [keys] at hq⟩

lemma KeysOk.append_fresh {total : Nat} {d : List (Nat × Bool)} {q : Nat}
    {v : Bool} (h : KeysOk total d) (hq : 1 ≤ q ∧ q ≤ total)
    (hfresh : q ∉ keys d) : KeysOk total (d ++ [(q, v)]) := by
  obtain ⟨h1, h2⟩ := h
  constructor
  · rw [keys_append, List.nodup_append]
    refine ⟨h1, by simp [keys], ?_⟩
    intro x hx hx2
    simp [keys] at hx2
    subst hx2
    exact hfresh hx
  · intro x hx
    rw [keys_append] at hx
    rcases List.mem_append.1 hx with hx | hx
    · exact h2 x hx
    · simp [keys] at hx
      subst hx
      exact hq

lemma KeysOk.setKey {total : Nat} {d : List (Nat × Bool)} {q : Nat} {v : Bool}
    (h : KeysOk total d) (hq : 1 ≤ q ∧ q ≤ total) :
    KeysOk total (ExamBot.setKey d q v) := by
  by_cases hk : hasKey d q = true
  · constructor
    · rw [keys_setKey, if_pos hk]
      exact h.1
    · intro x hx
      rw [keys_setKey, if_pos hk] at hx
      exact h.2 x hx
  · have hfresh : q ∉ keys d := fun hmem => hk (hasKey_iff.2 hmem)
    have happ := @KeysOk.append_fresh total d q v h hq hfresh
    have hkeys : keys (d ++ [(q, v)]) = keys d ++ [q] := by
      rw [keys_append]
      rfl
    constructor
    · rw [keys_setKey, if_neg hk, ← hkeys]
      exact happ.1
    · intro x hx
      rw [keys_setKey, if_neg hk, ← hkeys] at hx
      exact happ.2 x hx

lemma lookup_append_left {d e : List (Nat × Bool)} {q : Nat}
    (h : q ∈ keys d) : lookup (d ++ e) q = lookup d q := by
  unfold lookup
  rw [List.find?_append]
  cases hf : d.find? (fun p => p.1 == q) with
  | some p => simp
  | none =>
      exfalso
      obtain ⟨p, hp, hpq⟩ := List.mem_map.1 h
      have hall := List.find?_eq_none.1 hf p hp
      simp [hpq] at hall

/-- Lookup skips a prefix that does not contain the key. -/
lemma lookup_append_right {d e : List (Nat × Bool)} {q : Nat}
    (h : q ∉ keys d) : lookup (d ++ e) q = lookup e q := by
  unfold lookup
  rw [List.find?_append]
  cases hf : d.find? (fun p => p.1 == q) with
  | none => simp
  | some p =>
      exfalso
      have hp := List.mem_of_find?_eq_some hf
      have hpq := List.find?_some hf
      exact h (List.mem_map.2 ⟨p, hp, by simpa using hpq⟩)

lemma lookup_eq_some_true {d : List (Nat × Bool)} {q : Nat}
    (hall : ∀ p ∈ d, p.2 = true) (h : q ∈ keys d) : lookup d q = some true := by
  unfold lookup
  cases hf : d.find? (fun p => p.1 == q) with
  | none =>
      exfalso
      obtain ⟨p, hp, hpq⟩ := List.mem_map.1 h
      have := List.find?_eq_none.1 hf p hp
      simp [hpq] at this
  | some p =>
      have hp := List.mem_of_find?_eq_some hf
      simp [hall p hp]

/-!  Invariants of the three scraping loops.  -/

lemma keysOk_recordCorrect {total : Nat} {d : List (Nat × Bool)}
    (h : KeysOk total d) (oq : Option Nat) :
    KeysOk total (recordCorrect total d oq) := by
  cases oq with
  | none => exact h
  | some q =>
      show KeysOk total (if 1 ≤ q ∧ q ≤ total then setKey d q true else d)
      by_cases hq : 1 ≤ q ∧ q ≤ total
      · rw [if_pos hq]
        exact h.setKey hq
      · rw [if_neg hq]
        exact h

lemma keysOk_recordIncorrect {total : Nat} {d : List (Nat × Bool)}
    (h : KeysOk total d) (oq : Option Nat) :
    KeysOk total (recordIncorrect total d oq) := by
  cases oq with
  | none => exact h
  | some q =>
      show KeysOk total (if (1 ≤ q ∧ q ≤ total) ∧ hasKey d q = false then
        d ++ [(q, false)] else d)
      by_cases hc : (1 ≤ q ∧ q ≤ total) ∧ hasKey d q = false
      · rw [if_pos hc]
        exact h.append_fresh hc.1 fun hmem => by
          have := hasKey_iff.2 hmem
          rw [hc.2] at this
          exact Bool.false_ne_true this
      · rw [if_neg hc]
        exact h

lemma keysOk_foldl_recordCorrect {total : Nat} (l : List (Option Nat))
    {d : List (Nat × Bool)} (h : KeysOk total d) :
    KeysOk total (l.foldl (recordCorrect total) d) := by
  induction l generalizing d with
  | nil => exact h
  | cons hd tl ih => exact ih (keysOk_recordCorrect h hd)

lemma keysOk_foldl_recordIncorrect {total : Nat} (l : List (Option Nat))
    {d : List (Nat × Bool)} (h : KeysOk total d) :
    KeysOk total (l.foldl (recordIncorrect total) d) := by
  induction l generalizing d with
  | nil => exact h
  | cons hd tl ih => exact ih (keysOk_recordIncorrect h hd)

/-- Unfolding of the fill loop on one more question number. -/
lemma fillMissing_succ (n : Nat) (d : List (Nat × Bool)) :
    fillMissing (n + 1) d =
      (if hasKey (fillMissing n d) (n + 1) = false then
        fillMissing n d ++ [(n + 1, false)] else fillMissing n d) := by
  unfold fillMissing
  rw [List.range_succ, List.foldl_append]
  rfl

/-- After the fill loop over question numbers `1..n`, the key set is the old
key set plus all of `1..n`, and no-duplicates is preserved. -/
lemma fillMissing_keys (n : Nat) (d : List (Nat × Bool)) :
    (∀ q, q ∈ keys (fillMissing n d) ↔ q ∈ keys d ∨ (1 ≤ q ∧ q ≤ n)) ∧
    ((keys d).Nodup → (keys (fillMissing n d)).Nodup) := by
  induction n with
  | zero =>
      constructor
      · intro q
        simp [fillMissing, List.range_zero]
        omega
      · intro h
        simpa [fillMissing, List.range_zero] using h
  | succ n ih =>
      rw [fillMissing_succ]
      by_cases hk : hasKey (fillMissing n d) (n + 1) = false
      · rw [if_pos hk]
        have hkeys : keys (fillMissing n d ++ [(n + 1, false)]) =
            keys (fillMissing n d) ++ [n + 1] := by
          rw [keys_append]
          rfl
        constructor
        · intro q
          rw [hkeys, List.mem_append, List.mem_singleton, ih.1 q]
          constructor
          · rintro ((hq | hq) | rfl)
            · exact Or.inl hq
            · exact Or.inr ⟨hq.1, by omega⟩
            · exact Or.inr ⟨by omega, le_refl _⟩
          · rintro (hq | hq)
            · exact Or.inl (Or.inl hq)
            · by_cases hq2 : q = n + 1
              · exact Or.inr hq2
              · exact Or.inl (Or.inr ⟨hq.1, by omega⟩)
        · intro hnd
          rw [hkeys, List.nodup_append]
          refine ⟨ih.2 hnd, by simp, ?_⟩
          intro x hx hx2
          rw [List.mem_singleton] at hx2
          subst hx2
          have := hasKey_iff.2 hx
          rw [hk] at this
          exact Bool.false_ne_true this
      · rw [if_neg hk]
        have hmem : n + 1 ∈ keys (fillMissing n d) := by
          cases hb : hasKey (fillMissing n d) (n + 1) with
          | false => exact absurd hb hk
          | true => exact hasKey_iff.1 hb
        constructor
        · intro q
          rw [ih.1 q]
          constructor
          · rintro (hq | hq)
            · exact Or.inl hq
            · exact Or.inr ⟨hq.1, by omega⟩
          · rintro (hq | hq)
            · exact Or.inl hq
            · by_cases hq2 : q = n + 1
              · subst hq2
                exact (ih.1 (n + 1)).1 hmem
              · exact Or.inr ⟨hq.1, by omega⟩
        · exact ih.2

/-- Master lemma: the mapping returned by `parse_detailed_results` has keys
exactly `1..total`, with no duplicates. -/
lemma parse_keys (total : Nat) (scrapeFail : Bool)
    (cq iq : List (Option Nat)) :
    (∀ q, q ∈ keys (parse_detailed_results total scrapeFail cq iq) ↔
      1 ≤ q ∧ q ≤ total) ∧
    (keys (parse_detailed_results total scrapeFail cq iq)).Nodup := by
  unfold parse_detailed_results
  cases scrapeFail with
  | true =>
      rw [if_pos rfl]
      have hkeys : keys ((List.range total).map fun i => (i + 1, false)) =
          (List.range total).map (· + 1) := by
        unfold keys
        rw [List.map_map]
        rfl
      constructor
      · intro q
        rw [hkeys]
        simp only [List.mem_map, List.mem_range]
        constructor
        · rintro ⟨i, hi, rfl⟩
          omega
        · rintro ⟨h1, h2⟩
          exact ⟨q - 1, by omega, by omega⟩
      · rw [hkeys]
        exact (List.nodup_range total).map fun a b hab => by omega
  | false =>
      rw [if_neg (by simp)]
      have h2 : KeysOk total (iq.foldl (recordIncorrect total)
          (cq.foldl (recordCorrect total) [])) :=
        keysOk_foldl_recordIncorrect iq
          (keysOk_foldl_recordCorrect cq (KeysOk.nil total))
      have hfill := fillMissing_keys total
        (iq.foldl (recordIncorrect total) (cq.foldl (recordCorrect total) []))
      constructor
      · intro q
        rw [hfill.1 q]
        constructor
        · rintro (hq | hq)
          · exact h2.2 q hq
          · exact hq
        · exact Or.inr
      · exact hfill.2 h2.1

/-- On the `except` path every question maps to `false`. -/
lemma parse_fail_values (total : Nat) (cq iq : List (Option Nat)) :
    ∀ p ∈ parse_detailed_results total true cq iq, p.2 = false := by
  intro p hp
  unfold parse_detailed_results at hp
  rw [if_pos rfl] at hp
  obtain ⟨i, _, rfl⟩ := List.mem_map.1 hp
  rfl

/-- A key present after the first scraping loop was either already present
or came from a `Correct` marker element reporting that question number. -/
lemma mem_keys_foldl_recordCorrect_cases {total : Nat} (l : List (Option Nat))
    {d : List (Nat × Bool)} {x : Nat}
    (h : x ∈ keys (l.foldl (recordCorrect total) d)) :
    x ∈ keys d ∨ some x ∈ l := by
  induction l generalizing d with
  | nil => exact Or.inl h
  | cons hd tl ih =>
      rw [List.foldl_cons] at h
      rcases ih h with h2 | h2
      · cases hd with
        | none => exact Or.inl h2
        | some y =>
            have h3 : x ∈ keys (if 1 ≤ y ∧ y ≤ total then setKey d y true
                else d) := h2
            by_cases hy : 1 ≤ y ∧ y ≤ total
            · rw [if_pos hy] at h3
              rcases mem_keys_setKey.1 h3 with h4 | rfl
              · exact Or.inl h4
              · exact Or.inr (List.mem_cons_self _ _)
            · rw [if_neg hy] at h3
              exact Or.inl h3
      · exact Or.inr (List.mem_cons_of_mem _ h2)

/-- A key present after the second scraping loop was either already present
or came from an `Incorrect` marker element reporting that question number. -/
lemma mem_keys_foldl_recordIncorrect_cases {total : Nat}
    (l : List (Option Nat)) {d : List (Nat × Bool)} {x : Nat}
    (h : x ∈ keys (l.foldl (recordIncorrect total) d)) :
    x ∈ keys d ∨ some x ∈ l := by
  induction l generalizing d with
  | nil => exact Or.inl h
  | cons hd tl ih =>
      rw [List.foldl_cons] at h
      rcases ih h with h2 | h2
      · cases hd with
        | none => exact Or.inl h2
        | some y =>
            have h3 : x ∈ keys (if (1 ≤ y ∧ y ≤ total) ∧ hasKey d y = false
                then d ++ [(y, false)] else d) := h2
            by_cases hy : (1 ≤ y ∧ y ≤ total) ∧ hasKey d y = false
            · rw [if_pos hy, keys_append] at h3
              rcases List.mem_append.1 h3 with h4 | h4
              · exact Or.inl h4
              · simp [keys] at h4
                subst h4
                exact Or.inr (List.mem_cons_self _ _)
            · rw [if_neg hy] at h3
              exact Or.inl h3
      · exact Or.inr (List.mem_cons_of_mem _ h2)

/-- The fill loop writes the default `false` for every question number in
`1..n` that is absent from the dictionary it starts from. -/
lemma fillMissing_lookup_default (n : Nat) {d : List (Nat × Bool)} {q : Nat}
    (hq : 1 ≤ q ∧ q ≤ n) (hnot : q ∉ keys d) :
    lookup (fillMissing n d) q = some false := by
  induction n with
  | zero => omega
  | succ n ih =>
      rw [fillMissing_succ]
      by_cases hqn : q ≤ n
      · have hmem : q ∈ keys (fillMissing n d) :=
          ((fillMissing_keys n d).1 q).2 (Or.inr ⟨hq.1, hqn⟩)
        have hval := ih ⟨hq.1, hqn⟩
        by_cases hk : hasKey (fillMissing n d) (n + 1) = false
        · rw [if_pos hk, lookup_append_left hmem]
          exact hval
        · rw [if_neg hk]
          exact hval
      · have hq1 : q = n + 1 := by omega
        have hnot2 : q ∉ keys (fillMissing n d) := by
          intro hmem
          rcases ((fillMissing_keys n d).1 q).1 hmem with h | h
          · exact hnot h
          · omega
        have hk : hasKey (fillMissing n d) (n + 1) = false := by
          cases hb : hasKey (fillMissing n d) (n + 1) with
          | false => rfl
          | true => exact absurd (hasKey_iff.1 hb) (hq1 ▸ hnot2)
        rw [if_pos hk, lookup_append_right hnot2, hq1]
        simp [lookup]

/-- A question number the scrape failed to report — found near no `Correct`
element and no `Incorrect` element — ends up with the default value `false`
on the normal (non-exception) path. -/
lemma parse_unreported_default {total q : Nat} (cq iq : List (Option Nat))
    (hq : 1 ≤ q ∧ q ≤ total) (hc : some q ∉ cq) (hi : some q ∉ iq) :
    lookup (parse_detailed_results total false cq iq) q = some false := by
  unfold parse_detailed_results
  rw [if_neg (by simp)]
  have h1 : q ∉ keys (cq.foldl (recordCorrect total) []) := by
    intro hmem
    rcases mem_keys_foldl_recordCorrect_cases cq hmem with h | h
    · simp [keys] at h
    · exact hc h
  have h2 : q ∉ keys (iq.foldl (recordIncorrect total)
      (cq.foldl (recordCorrect total) [])) := by
    intro hmem
    rcases mem_keys_foldl_recordIncorrect_cases iq hmem with h | h
    · exact h1 h
    · exact hi h
  exact fillMissing_lookup_default total hq h2

/-- Claim C7: the per-question mapping produced by `parse_detailed_results`
has keys exactly `1..totalQuestions` (each once), whatever the scrape found;
on the normal path every question the scrape failed to report is explicitly
filled with the default value `false` (assume incorrect); and when result
parsing fails entirely, every question maps to `false`. -/
theorem C7_perQuestion_total (total : Nat) (scrapeFail : Bool)
    (cq iq : List (Option Nat)) :
    (∀ q, q ∈ keys (parse_detailed_results total scrapeFail cq iq) ↔
      1 ≤ q ∧ q ≤ total) ∧
    (keys (parse_detailed_results total scrapeFail cq iq)).Nodup ∧
    (scrapeFail = false → ∀ q, 1 ≤ q ∧ q ≤ total →
      some q ∉ cq → some q ∉ iq →
      lookup (parse_detailed_results total scrapeFail cq iq) q = some false) ∧
    (scrapeFail = true →
      ∀ p ∈ parse_detailed_results total scrapeFail cq iq, p.2 = false) := by
  refine ⟨(parse_keys total scrapeFail cq iq).1,
    (parse_keys total scrapeFail cq iq).2, ?_, ?_⟩
  · rintro rfl q hq hc hi
    exact parse_unreported_default cq iq hq hc hi
  · rintro rfl
    exact parse_fail_values total cq iq

/-- Witness for C7 at concrete inputs: a two-question scrape reporting only
question 1 (near a `Correct` element) fills the unreported question 2 with
`false`; and on the failed-parse path every entry is `false`. -/
theorem C7_perQuestion_total_witness :
    (2 ∈ keys (parse_detailed_results 2 false [some 1] []) ↔ 1 ≤ 2 ∧ 2 ≤ 2) ∧
    lookup (parse_detailed_results 2 false [some 1] []) 2 = some false ∧
    ((1, false) ∈ parse_detailed_results 2 true [some 1] [] →
      ((1 : Nat), false).2 = false) :=
  ⟨(C7_perQuestion_total 2 false [some 1] []).1 2,
    (C7_perQuestion_total 2 false [some 1] []).2.2.1 rfl 2 (by decide)
      (by decide) (by decide),
    (C7_perQuestion_total 2 true [some 1] []).2.2.2 rfl (1, false)⟩

/-!  Preservation lemmas for C10: the first scraping loop only writes `true`,
and the later loops never change an entry that is already present.  -/

lemma setKey_true_values {d : List (Nat × Bool)} {q : Nat}
    (h : ∀ p ∈ d, p.2 = true) : ∀ p ∈ setKey d q true, p.2 = true := by
  unfold setKey
  by_cases hk : hasKey d q
  · rw [if_pos hk]
    intro p hp
    obtain ⟨p0, hp0, rfl⟩ := List.mem_map.1 hp
    by_cases h0 : p0.1 = q
    · simp [h0]
    · simp [h0]
      exact h p0 hp0
  · rw [if_neg hk]
    intro p hp
    rcases List.mem_append.1 hp with hp | hp
    · exact h p hp
    · rw [List.mem_singleton] at hp
      subst hp
      rfl

lemma recordCorrect_true_values {total : Nat} {d : List (Nat × Bool)}
    (h : ∀ p ∈ d, p.2 = true) (oq : Option Nat) :
    ∀ p ∈ recordCorrect total d oq, p.2 = true := by
  cases oq with
  | none => exact h
  | some q =>
      show ∀ p ∈ (if 1 ≤ q ∧ q ≤ total then setKey d q true else d), p.2 = true
      by_cases hq : 1 ≤ q ∧ q ≤ total
      · rw [if_pos hq]
        exact setKey_true_values h
      · rw [if_neg hq]
        exact h

lemma foldl_recordCorrect_true_values {total : Nat} (l : List (Option Nat))
    {d : List (Nat × Bool)} (h : ∀ p ∈ d, p.2 = true) :
    ∀ p ∈ l.foldl (recordCorrect total) d, p.2 = true := by
  induction l generalizing d with
  | nil => exact h
  | cons hd tl ih => exact ih (recordCorrect_true_values h hd)

lemma mem_keys_recordCorrect_mono {total : Nat} {d : List (Nat × Bool)}
    {x : Nat} (h : x ∈ keys d) (oq : Option Nat) :
    x ∈ keys (recordCorrect total d oq) := by
  cases oq with
  | none => exact h
  | some q =>
      show x ∈ keys (if 1 ≤ q ∧ q ≤ total then setKey d q true else d)
      by_cases hq : 1 ≤ q ∧ q ≤ total
      · rw [if_pos hq]
        exact mem_keys_setKey.2 (Or.inl h)
      · rw [if_neg hq]
        exact h

/-- If some `Correct` element was located near question `q` (with `q` in
range), then after the first scraping loop `q` is a key. -/
lemma mem_keys_foldl_recordCorrect {total : Nat} (l : List (Option Nat))
    {d : List (Nat × Bool)} {q : Nat} (hq : 1 ≤ q ∧ q ≤ total)
    (hl : some q ∈ l ∨ q ∈ keys d) :
    q ∈ keys (l.foldl (recordCorrect total) d) := by
  induction l generalizing d with
  | nil =>
      rcases hl with h | h
      · exact absurd h (List.not_mem_nil _)
      · exact h
  | cons hd tl ih =>
      rw [List.foldl_cons]
      rcases hl with h | h
      · rcases List.mem_cons.1 h with rfl | h2
        · refine ih (Or.inr ?_)
          show q ∈ keys (if 1 ≤ q ∧ q ≤ total then setKey d q true else d)
          rw [if_pos hq]
          exact mem_keys_setKey.2 (Or.inr rfl)
        · exact ih (Or.inl h2)
      · exact ih (Or.inr (mem_keys_recordCorrect_mono h hd))

/-- The second scraping loop never touches a question that is already
present: its key stays present and its looked-up value is unchanged. -/
lemma foldl_recordIncorrect_preserves {total : Nat} (l : List (Option Nat))
    {d : List (Nat × Bool)} {q : Nat} (h : q ∈ keys d) :
    q ∈ keys (l.foldl (recordIncorrect total) d) ∧
      lookup (l.foldl (recordIncorrect total) d) q = lookup d q := by
  induction l generalizing d with
  | nil => exact ⟨h, rfl⟩
  | cons hd tl ih =>
      rw [List.foldl_cons]
      have hstep : q ∈ keys (recordIncorrect total d hd) ∧
          lookup (recordIncorrect total d hd) q = lookup d q := by
        cases hd with
        | none => exact ⟨h, rfl⟩
        | some x =>
            show q ∈ keys (if (1 ≤ x ∧ x ≤ total) ∧ hasKey d x = false then
                d ++ [(x, false)] else d) ∧
              lookup (if (1 ≤ x ∧ x ≤ total) ∧ hasKey d x = false then
                d ++ [(x, false)] else d) q = lookup d q
            by_cases hc : (1 ≤ x ∧ x ≤ total) ∧ hasKey d x = false
            · rw [if_pos hc]
              constructor
              · rw [keys_append]
                exact List.mem_append.2 (Or.inl h)
              · exact lookup_append_left h
            · rw [if_neg hc]
              exact ⟨h, rfl⟩
      obtain ⟨ihm, ihl⟩ := ih hstep.1
      exact ⟨ihm, by rw [ihl, hstep.2]⟩

/-- The fill loop likewise never touches a question that is already
present. -/
lemma fillMissing_preserves (n : Nat) {d : List (Nat × Bool)} {q : Nat}
    (h : q ∈ keys d) :
    q ∈ keys (fillMissing n d) ∧ lookup (fillMissing n d) q = lookup d q := by
  induction n with
  | zero => exact ⟨h, rfl⟩
  | succ n ih =>
      rw [fillMissing_succ]
      by_cases hk : hasKey (fillMissing n d) (n + 1) = false
      · rw [if_pos hk]
        constructor
        · rw [keys_append]
          exact List.mem_append.2 (Or.inl ih.1)
        · rw [lookup_append_left ih.1]
          exact ih.2
      · rw [if_neg hk]
        exact ih

/-- Claim C10: when the same question number is found near both a `Correct`
marker element and an `Incorrect` marker element, the parsed entry is `true`
— the correct loop runs first and the incorrect loop skips any question that
is already present. -/
theorem C10_correct_marker_wins (total q : Nat) (cq iq : List (Option Nat))
    (hq : 1 ≤ q ∧ q ≤ total) (hc : some q ∈ cq) (hi : some q ∈ iq) :
    lookup (parse_detailed_results total false cq iq) q = some true := by
  unfold parse_detailed_results
  rw [if_neg (by simp)]
  have hmem1 : q ∈ keys (cq.foldl (recordCorrect total) []) :=
    mem_keys_foldl_recordCorrect cq hq (Or.inl hc)
  have hval1 : lookup (cq.foldl (recordCorrect total) []) q = some true :=
    lookup_eq_some_true
      (foldl_recordCorrect_true_values cq (by intro p hp; simp at hp)) hmem1
  have h2 := @foldl_recordIncorrect_preserves total iq _ q hmem1
  have h3 := fillMissing_preserves total h2.1
  rw [h3.2, h2.2, hval1]

/-- Witness for C10: question 1 appears near both a `Correct` and an
`Incorrect` element; the parsed value is `true`. -/
theorem C10_correct_marker_wins_witness :
    lookup (parse_detailed_results 1 false [some 1] [some 1]) 1 = some true :=
  C10_correct_marker_wins 1 1 [some 1] [some 1] (by decide) (by decide)
    (by decide)

/-!  Claims about the control flow of one pass (C8 and C9).  -/

/-- The parsed results are never empty when at least one question exists:
question number 1 is always a key. -/
lemma parse_ne_nil {total : Nat} (h : 1 ≤ total) (scrapeFail : Bool)
    (cq iq : List (Option Nat)) :
    parse_detailed_results total scrapeFail cq iq ≠ [] := by
  intro h0
  have hmem := (parse_keys total scrapeFail cq iq).1 1
  rw [h0] at hmem
  simp [keys] at hmem
  omega

/-- One pass in which the browser stays healthy and submission succeeds, but
not a single answer selection succeeds. -/
def zeroSelectEnv : PassEnv where
  browserResponsive := true
  foundQuestions := 1
  totalQuestions := 1
  selectSuccess := fun _ => false
  loopHealthOk := true
  submitSuccess := true
  scrapeFail := false
  correctQs := []
  incorrectQs := []

/-- Counterexample to claim C8 as stated: in `zeroSelectEnv` not one answer
selection succeeds, yet the pass is not a terminal failure — it proceeds to
submission, returns a non-empty results dictionary and persists it (result
file written and results stored in memory). -/
theorem C8_zero_selections_counterexample :
    successful_selections zeroSelectEnv = 0 ∧
    test_single_option zeroSelectEnv =
      { results := [(1, false)], fileWritten := true, memoryStored := true } := by
  constructor <;> rfl

/-- Claim C8 amended: `test_single_option` never gates on the number of
successful selections — whenever the browser is responsive, questions are
re-found, the loop health checks pass and submission succeeds, the pass
proceeds to submission and persists a non-empty `PassResult`, even when zero
selections succeeded (the count is only reported, and compared against the
80 percent floor for a warning). -/
theorem C8_selection_failures_tolerated (env : PassEnv)
    (h1 : env.browserResponsive = true)
    (h2 : 1 ≤ env.foundQuestions)
    (h3 : env.loopHealthOk = true)
    (h4 : env.submitSuccess = true)
    (h5 : 1 ≤ env.totalQuestions) :
    (test_single_option env).results =
      parse_detailed_results env.totalQuestions env.scrapeFail
        env.correctQs env.incorrectQs ∧
    (test_single_option env).results ≠ [] ∧
    (test_single_option env).fileWritten = true := by
  have hne := parse_ne_nil h5 env.scrapeFail env.correctQs env.incorrectQs
  unfold test_single_option
  rw [if_neg (by rw [h1]; simp),
    if_neg (by omega),
    if_neg (by rw [h3]; rintro ⟨h, _⟩; simp at h),
    if_neg (by rw [h4]; simp),
    if_neg hne]
  exact ⟨rfl, hne, rfl⟩

/-- Witness for the amended C8, applied to the zero-successful-selections
environment. -/
theorem C8_selection_failures_tolerated_witness :
    (test_single_option zeroSelectEnv).results ≠ [] ∧
    (test_single_option zeroSelectEnv).fileWritten = true :=
  ⟨(C8_selection_failures_tolerated zeroSelectEnv rfl (by decide) rfl rfl
      (by decide)).2.1,
    (C8_selection_failures_tolerated zeroSelectEnv rfl (by decide) rfl rfl
      (by decide)).2.2⟩

/-- A pass whose submission fails. -/
def submitFailEnv : PassEnv where
  browserResponsive := true
  foundQuestions := 3
  totalQuestions := 3
  selectSuccess := fun _ => true
  loopHealthOk := true
  submitSuccess := false
  scrapeFail := false
  correctQs := [some 1]
  incorrectQs := [some 2]

/-- A pass whose submission succeeds. -/
def submitOkEnv : PassEnv where
  browserResponsive := true
  foundQuestions := 3
  totalQuestions := 3
  selectSuccess := fun _ => true
  loopHealthOk := true
  submitSuccess := true
  scrapeFail := false
  correctQs := [some 1]
  incorrectQs := [some 2]

/-- Claim C9: in a pass that reaches the submission step (responsive browser,
questions re-found, healthy loop), a failed submission means nothing is
persisted — the result file is not written and no result is stored in
`self.test_results` — while a successful submission persists the PassResult
(both file and memory) before `test_single_option` returns. -/
theorem C9_submission_persistence (env : PassEnv)
    (h1 : env.browserResponsive = true)
    (h2 : 1 ≤ env.foundQuestions)
    (h3 : env.loopHealthOk = true)
    (h5 : 1 ≤ env.totalQuestions) :
    (env.submitSuccess = false →
      (test_single_option env).fileWritten = false ∧
      (test_single_option env).memoryStored = false ∧
      (test_single_option env).results = []) ∧
    (env.submitSuccess = true →
      (test_single_option env).fileWritten = true ∧
      (test_single_option env).memoryStored = true) := by
  have hne := parse_ne_nil h5 env.scrapeFail env.correctQs env.incorrectQs
  constructor
  · intro hsub
    unfold test_single_option
    rw [if_neg (by rw [h1]; simp),
      if_neg (by omega),
      if_neg (by rw [h3]; rintro ⟨h, _⟩; simp at h),
      if_pos hsub]
    exact ⟨rfl, rfl, rfl⟩
  · intro hsub
    unfold test_single_option
    rw [if_neg (by rw [h1]; simp),
      if_neg (by omega),
      if_neg (by rw [h3]; rintro ⟨h, _⟩; simp at h),
      if_neg (by rw [hsub]; simp),
      if_neg hne]
    exact ⟨rfl, rfl⟩

/-- Witness for C9: with submission failing nothing is persisted; with
submission succeeding the pass record is persisted. -/
theorem C9_submission_persistence_witness :
    ((test_single_option submitFailEnv).fileWritten = false ∧
      (test_single_option submitFailEnv).memoryStored = false ∧
      (test_single_option submitFailEnv).results = []) ∧
    ((test_single_option submitOkEnv).fileWritten = true ∧
      (test_single_option submitOkEnv).memoryStored = true) :=
  ⟨(C9_submission_persistence submitFailEnv rfl (by decide) rfl
      (by decide)).1 rfl,
    (C9_submission_persistence submitOkEnv rfl (by decide) rfl
      (by decide)).2 rfl⟩

end ExamBot
